import Mathlib

/-!
# Verification of the `elgamal` Go package

Shallow embedding of the ElGamal public-key cryptosystem implementation
(`elgamal.go`): key structures, encryption, decryption, the homomorphic
combination of ciphertexts, and domain-parameter generation, together with
proofs of the correctness properties stated in the specification.

Big integers are modelled as `ℕ` (all values handled by the code are
non-negative), byte slices by the natural number they encode, and fallible
operations return `Except ElgamalError`.  Randomness (the ephemeral
exponent `k`, the secret exponent draw, the sampled candidates of `Gen`)
is passed in explicitly as arguments.
-/

/-- The error outcomes of the package: `ErrMessageLarge`, `ErrCipherLarge`
and the inline "invalid private key" error of `Decrypt`. -/
inductive ElgamalError where
  | messageTooLarge
  | cipherTooLarge
  | invalidKey
  deriving DecidableEq

/-- Go struct `PublicKey` from the source: fields `G`, `P`, `Y`. -/
structure PublicKey where
  G : ℕ
  P : ℕ
  Y : ℕ
  deriving DecidableEq

/-- Go struct `PrivateKey` from the source: embeds a `PublicKey` and the secret
exponent `X`. -/
structure PrivateKey extends PublicKey where
  X : ℕ
  deriving DecidableEq

/-- Model of `big.Int.ModInverse(g, n)`: the multiplicative inverse of `g`
in `ℤ/nℤ` when `g` and `n` are coprime (returned as the canonical
representative in `[0, n)`, which for `n = 1` is `0`), and `none` when no
inverse exists. -/
def modInverse (g n : ℕ) : Option ℕ :=
  if Nat.gcd g n = 1 then
    if n ≤ 1 then some 0
    else (List.range n).find? (fun b => g * b % n = 1)
  else none

/-- Model of `PublicKey.Encrypt`, with the ephemeral exponent `k` (the value that
`rand.Int(rand.Reader, pub.P)` returned, uniform in `[0, p)`) passed
explicitly.  The guard is the source's `m.Cmp(pub.P) == 1`, i.e. it
rejects exactly when `m > p`. -/
def PublicKey.encrypt (pub : PublicKey) (k m : ℕ) : Except ElgamalError (ℕ × ℕ) :=
  if pub.P < m then Except.error ElgamalError.messageTooLarge
  else Except.ok (pub.G ^ k % pub.P, m * (pub.Y ^ k % pub.P) % pub.P)

/-- Model of `PrivateKey.Decrypt`.  The guard is the source's
`c1.Cmp(priv.P) == 1 && c2.Cmp(priv.P) == 1`: it rejects exactly when
both components exceed `p`. -/
def PrivateKey.decrypt (priv : PrivateKey) (c1 c2 : ℕ) : Except ElgamalError ℕ :=
  if priv.P < c1 ∧ priv.P < c2 then Except.error ElgamalError.cipherTooLarge
  else
    match modInverse (c1 ^ priv.X % priv.P) priv.P with
    | none => Except.error ElgamalError.invalidKey
    | some sinv => Except.ok (sinv * c2 % priv.P)

/-- Model of `PublicKey.HomomorphicEncTwo`: componentwise product of two
ciphertexts modulo `p`, with the source's two `&&`-guards. -/
def PublicKey.homomorphicEncTwo (pub : PublicKey) (c1 c2 c1dash c2dash : ℕ) :
    Except ElgamalError (ℕ × ℕ) :=
  if pub.P < c1 ∧ pub.P < c2 then Except.error ElgamalError.cipherTooLarge
  else if pub.P < c1dash ∧ pub.P < c2dash then Except.error ElgamalError.cipherTooLarge
  else Except.ok (c1 * c1dash % pub.P, c2 * c2dash % pub.P)

/-- The loop body of `PublicKey.HommorphicEncMultiple`: accumulators start
at `(1, 1)` and each element is guard-checked and multiplied in modulo `P`. -/
def hommorphicLoop (P : ℕ) : List (ℕ × ℕ) → ℕ → ℕ → Except ElgamalError (ℕ × ℕ)
  | [], C1, C2 => Except.ok (C1, C2)
  | c :: rest, C1, C2 =>
    if P < c.1 ∧ P < c.2 then Except.error ElgamalError.cipherTooLarge
    else hommorphicLoop P rest (C1 * c.1 % P) (C2 * c.2 % P)

/-- Model of `PublicKey.HommorphicEncMultiple` (name as in the source). -/
def PublicKey.hommorphicEncMultiple (pub : PublicKey) (cs : List (ℕ × ℕ)) :
    Except ElgamalError (ℕ × ℕ) :=
  hommorphicLoop pub.P cs 1 1

/-- The key material built from domain parameters `(p, g)` and a secret
exponent `x`: `Y = g^x mod p` as computed by `GenerateKey`. -/
def keyFromParams (p g x : ℕ) : PrivateKey :=
  { G := g, P := p, Y := g ^ x % p, X := x }

/-- Model of `GenerateKey` after `GeneratePQZp` produced `(p, q, g)`, with `r` the
value returned by `big.Int.Rand(randSource, q-1)` — a draw uniform in
`[0, q-1)`.  The code stores `X := r` and `Y := g^r mod p`. -/
def generateKey (p : ℕ) (_q : ℕ) (g r : ℕ) : PrivateKey :=
  keyFromParams p g r

/-- One iteration of `Gen`'s sampling loop: `q` is the candidate from
`rand.Prime`, `g` the candidate from `rand.Int`, and `pp` models
`p.ProbablyPrime(probability)`.  `Gen` returns a triple exactly when some
iteration accepts it, i.e. when `genStep pp q g = some (p, q, g)`. -/
def genStep (pp : ℕ → Bool) (q g : ℕ) : Option (ℕ × ℕ × ℕ) :=
  let p := q * 2 + 1
  if pp p then
    if g ^ 2 % p = 1 then none
    else if g ^ q % p = 1 then some (p, q, g)
    else none
  else none

/-! ## Helper lemmas -/

/-- When `g` is coprime to `n > 1`, `modInverse` returns some `b` with
`g * b ≡ 1 (mod n)`. -/
theorem modInverse_spec {g n : ℕ} (h : Nat.gcd g n = 1) (hn : 1 < n) :
    ∃ b, modInverse g n = some b ∧ g * b % n = 1 := by
  have hcop : Nat.Coprime g n := h
  obtain ⟨m, hm⟩ := Nat.exists_mul_emod_eq_one_of_coprime hcop hn
  have hmem : m % n ∈ List.range n := List.mem_range.mpr (Nat.mod_lt _ (by omega))
  have hpred : g * (m % n) % n = 1 := by rw [Nat.mul_mod_mod]; exact hm
  have hsome : ((List.range n).find? (fun b => g * b % n = 1)).isSome := by
    rw [List.find?_isSome]
    exact ⟨m % n, hmem, by simpa using hpred⟩
  obtain ⟨b, hb⟩ := Option.isSome_iff_exists.mp hsome
  refine ⟨b, ?_, ?_⟩
  · unfold modInverse
    rw [if_pos h, if_neg (by omega)]
    exact hb
  · simpa using List.find?_some hb

/-- For `n > 1`, `modInverse` fails exactly when `g` and `n` are not
coprime. -/
theorem modInverse_eq_none {g n : ℕ} (hn : 1 < n) :
    modInverse g n = none ↔ Nat.gcd g n ≠ 1 := by
  constructor
  · intro hnone h1
    obtain ⟨b, hb, -⟩ := modInverse_spec h1 hn
    rw [hnone] at hb
    exact Option.noConfusion hb
  · intro hne
    unfold modInverse
    rw [if_neg hne]

/-- Inversion principle for `encrypt`: it succeeds exactly on `m ≤ p`
(the source guard rejects only `m > p`) and the ciphertext components are
`g^k mod p` and `m * (y^k mod p) mod p`. -/
theorem encrypt_eq_ok {pub : PublicKey} {k m c1 c2 : ℕ} :
    pub.encrypt k m = Except.ok (c1, c2) ↔
      m ≤ pub.P ∧ c1 = pub.G ^ k % pub.P ∧ c2 = m * (pub.Y ^ k % pub.P) % pub.P := by
  unfold PublicKey.encrypt
  by_cases h : pub.P < m
  · rw [if_pos h]
    constructor
    · intro he
      exact Except.noConfusion he
    · rintro ⟨hm, -, -⟩
      omega
  · rw [if_neg h]
    simp only [Except.ok.injEq, Prod.mk.injEq]
    constructor
    · rintro ⟨h1, h2⟩
      exact ⟨Nat.le_of_not_lt h, h1.symm, h2.symm⟩
    · rintro ⟨-, h1, h2⟩
      exact ⟨h1.symm, h2.symm⟩

/-- A prime `p` not dividing `a` does not divide `a ^ k mod p`. -/
theorem not_dvd_pow_mod {p a : ℕ} (hp : p.Prime) (ha : ¬ p ∣ a) (k : ℕ) :
    ¬ p ∣ a ^ k % p := by
  rw [Nat.dvd_mod_iff (dvd_refl p)]
  intro hd
  exact ha (hp.dvd_of_dvd_pow hd)

/-- If `g ^ q ≡ 1 (mod p)` with `p > 1` and `q > 0` then `p` does not
divide `g`. -/
theorem not_dvd_of_pow_mod_eq_one {p q g : ℕ} (hq0 : 0 < q)
    (hgq : g ^ q % p = 1) : ¬ p ∣ g := by
  intro hd
  have hpow : p ∣ g ^ q := dvd_pow hd (by omega)
  rw [Nat.mod_eq_zero_of_dvd hpow] at hgq
  exact absurd hgq.symm one_ne_zero

/-- The second ciphertext component produced with public value
`y = g^x mod p` is congruent to `m * c1 ^ x` modulo `p`, where
`c1 = g^k mod p` is the first component. -/
theorem encrypt_rel (p g x k m : ℕ) :
    m * ((g ^ x % p) ^ k % p) % p ≡ m * (g ^ k % p) ^ x [MOD p] := by
  calc m * ((g ^ x % p) ^ k % p) % p
      ≡ m * ((g ^ x % p) ^ k % p) [MOD p] := Nat.mod_modEq _ p
    _ ≡ m * (g ^ x % p) ^ k [MOD p] := Nat.ModEq.mul_left m (Nat.mod_modEq _ p)
    _ ≡ m * (g ^ x) ^ k [MOD p] := Nat.ModEq.mul_left m ((Nat.mod_modEq _ p).pow k)
    _ = m * (g ^ k) ^ x := by ring
    _ ≡ m * (g ^ k % p) ^ x [MOD p] := Nat.ModEq.mul_left m ((Nat.mod_modEq _ p).symm.pow x)

/-- Core decryption lemma: a ciphertext `(c1, c2)` with `c1 < p`, `c1`
invertible and `c2 ≡ M * c1 ^ x (mod p)` decrypts to `M` under any key
with modulus `p` and exponent `x`. -/
theorem decrypt_of_rel (p gv yv x c1 c2 M : ℕ) (hp : p.Prime)
    (hc1 : c1 < p) (hnd : ¬ p ∣ c1) (hM : M < p)
    (hrel : c2 ≡ M * c1 ^ x [MOD p]) :
    PrivateKey.decrypt ⟨⟨gv, p, yv⟩, x⟩ c1 c2 = Except.ok M := by
  have hp1 : 1 < p := hp.one_lt
  have hnds : ¬ p ∣ c1 ^ x % p := not_dvd_pow_mod hp hnd x
  have hcop : Nat.gcd (c1 ^ x % p) p = 1 :=
    Nat.Coprime.symm (hp.coprime_iff_not_dvd.mpr hnds)
  obtain ⟨b, hb, hb1⟩ := modInverse_spec hcop hp1
  unfold PrivateKey.decrypt
  rw [if_neg (fun hcon => absurd hcon.1 (Nat.not_lt.mpr (Nat.le_of_lt hc1)))]
  show (match modInverse (c1 ^ x % p) p with
    | none => Except.error ElgamalError.invalidKey
    | some sinv => Except.ok (sinv * c2 % p)) = Except.ok M
  rw [hb]
  show Except.ok (b * c2 % p) = Except.ok M
  have hsb : c1 ^ x % p * b ≡ 1 [MOD p] := by
    show c1 ^ x % p * b % p = 1 % p
    rw [Nat.mod_eq_of_lt hp1]
    exact hb1
  have hchain : b * c2 ≡ M [MOD p] := by
    calc b * c2
        ≡ b * (M * c1 ^ x) [MOD p] := Nat.ModEq.mul_left b hrel
      _ ≡ b * (M * (c1 ^ x % p)) [MOD p] :=
          Nat.ModEq.mul_left b (Nat.ModEq.mul_left M (Nat.mod_modEq _ p).symm)
      _ = M * (c1 ^ x % p * b) := by ring
      _ ≡ M * 1 [MOD p] := Nat.ModEq.mul_left M hsb
      _ = M := by ring
  have heq : b * c2 % p = M % p := hchain
  rw [heq, Nat.mod_eq_of_lt hM]

/-- The accumulator-passing loop of `HommorphicEncMultiple` computes the
componentwise product modulo `P` when every input component is reduced. -/
theorem hommorphicLoop_spec (P : ℕ) (hP : 0 < P) (cs : List (ℕ × ℕ)) :
    ∀ A B : ℕ, (∀ c ∈ cs, c.1 < P ∧ c.2 < P) → A < P → B < P →
      hommorphicLoop P cs A B =
        Except.ok (A * (cs.map Prod.fst).prod % P, B * (cs.map Prod.snd).prod % P) := by
  induction cs with
  | nil =>
    intro A B _ hA hB
    simp [hommorphicLoop, Nat.mod_eq_of_lt hA, Nat.mod_eq_of_lt hB]
  | cons c rest ih =>
    intro A B hcs hA hB
    have hc := hcs c (List.mem_cons_self c rest)
    rw [hommorphicLoop, if_neg (by omega)]
    rw [ih _ _ (fun d hd => hcs d (List.mem_cons_of_mem c hd))
      (Nat.mod_lt _ hP) (Nat.mod_lt _ hP)]
    simp only [List.map_cons, List.prod_cons, Except.ok.injEq, Prod.mk.injEq]
    constructor
    · rw [Nat.mul_mod (A * c.1 % P), Nat.mod_mod, ← Nat.mul_mod, Nat.mul_assoc]
    · rw [Nat.mul_mod (B * c.2 % P), Nat.mod_mod, ← Nat.mul_mod, Nat.mul_assoc]

/-- Mapping with `List.mapM` over `Except` succeeds pointwise. -/
theorem mapM_loop_ok {α β : Type} (f : α → Except ElgamalError β) (gf : α → β)
    (l : List α) : ∀ acc : List β, (∀ a ∈ l, f a = Except.ok (gf a)) →
      List.mapM.loop f l acc = Except.ok (acc.reverse ++ l.map gf) := by
  induction l with
  | nil =>
    intro acc _
    simp only [List.mapM.loop, List.map_nil, List.append_nil]
    rfl
  | cons a as ih =>
    intro acc h
    rw [List.mapM.loop]
    rw [h a (List.mem_cons_self a as)]
    show List.mapM.loop f as (gf a :: acc) = _
    rw [ih _ (fun b hb => h b (List.mem_cons_of_mem a hb))]
    simp

/-- Mapping with `List.mapM` over `Except` succeeds pointwise (top-level form). -/
theorem mapM_ok {α β : Type} (f : α → Except ElgamalError β) (gf : α → β)
    (l : List α) (h : ∀ a ∈ l, f a = Except.ok (gf a)) :
    l.mapM f = Except.ok (l.map gf) := by
  rw [List.mapM]
  simpa using mapM_loop_ok f gf l [] h

/-- The product of the second ciphertext components is congruent to the
product of the messages times the `x`-th power of the product of the
first components. -/
theorem prod_rel (p g x : ℕ) (l : List (ℕ × ℕ)) :
    (l.map fun mk => mk.1 * ((g ^ x % p) ^ mk.2 % p) % p).prod ≡
      (l.map Prod.fst).prod * ((l.map fun mk => g ^ mk.2 % p).prod) ^ x [MOD p] := by
  induction l with
  | nil =>
    simp only [List.map_nil, List.prod_nil, one_pow, one_mul]
    exact Nat.ModEq.refl 1
  | cons a t ih =>
    simp only [List.map_cons, List.prod_cons]
    calc (a.1 * ((g ^ x % p) ^ a.2 % p) % p) *
          (t.map fun mk => mk.1 * ((g ^ x % p) ^ mk.2 % p) % p).prod
        ≡ (a.1 * (g ^ a.2 % p) ^ x) *
            ((t.map Prod.fst).prod * ((t.map fun mk => g ^ mk.2 % p).prod) ^ x) [MOD p] :=
          Nat.ModEq.mul (encrypt_rel p g x a.2 a.1) ih
      _ = (a.1 * (t.map Prod.fst).prod) *
            ((g ^ a.2 % p) * (t.map fun mk => g ^ mk.2 % p).prod) ^ x := by ring

/-! ## Claim theorems -/

/-- C1: for every safe-prime parameter set `(p, q, g)` with `g` of order
`q`, every secret exponent `x ∈ [1, q)`, every plaintext `m < p` and
every ephemeral exponent `k ∈ [0, p-1]`, decrypting the encryption of
`m` returns exactly `m`. -/
theorem C1_roundtrip (p q g x m k : ℕ)
    (hp : p.Prime) (hq : q.Prime) (hpq : p = 2 * q + 1)
    (hg2 : g ^ 2 % p ≠ 1) (hgq : g ^ q % p = 1)
    (hx1 : 1 ≤ x) (hxq : x < q) (hm : m < p) (hk : k ≤ p - 1) :
    ((keyFromParams p g x).toPublicKey.encrypt k m).bind
      (fun c => (keyFromParams p g x).decrypt c.1 c.2) = Except.ok m := by
  have hp0 : 0 < p := hp.pos
  have hpg : ¬ p ∣ g := not_dvd_of_pow_mod_eq_one hq.pos hgq
  have henc : (keyFromParams p g x).toPublicKey.encrypt k m =
      Except.ok (g ^ k % p, m * ((g ^ x % p) ^ k % p) % p) :=
    encrypt_eq_ok.mpr ⟨Nat.le_of_lt hm, rfl, rfl⟩
  rw [henc]
  exact decrypt_of_rel p g (g ^ x % p) x _ _ m hp (Nat.mod_lt _ hp0)
    (not_dvd_pow_mod hp hpg k) hm (encrypt_rel p g x k m)

/-- Witness for C1 at the specification's concrete parameter set. -/
theorem C1_roundtrip_witness :
    ((keyFromParams 23 4 3).toPublicKey.encrypt 5 10).bind
      (fun c => (keyFromParams 23 4 3).decrypt c.1 c.2) = Except.ok 10 :=
  C1_roundtrip 23 11 4 3 10 5 (by norm_num) (by norm_num) (by norm_num)
    (by decide) (by decide) (by decide) (by decide) (by decide) (by decide)

/-- C4 (code defect): the source guard `m.Cmp(pub.P) == 1` rejects only
`m > p`, so encrypting the message whose value equals `p` itself
succeeds and returns a ciphertext instead of failing with
`MessageTooLarge` (shown at `p = 23`, ephemeral exponent `5`). -/
theorem C4_encrypt_accepts_modulus :
    (keyFromParams 23 4 3).toPublicKey.encrypt 5 23 = Except.ok (12, 0) := rfl

/-- C5 (code defect): the source guard
`c1.Cmp(P) == 1 && c2.Cmp(P) == 1` does not fire on the ciphertext
`(p, 0)` — neither component strictly exceeds `p` resp. `0 < p` — so
decryption proceeds, computes `s = p^x mod p = 0`, and fails with the
`InvalidKey` error rather than `CipherTooLarge` (shown at `p = 23`,
`x = 3`). -/
theorem C5_decrypt_modulus_zero :
    (keyFromParams 23 4 3).decrypt 23 0 = Except.error ElgamalError.invalidKey := rfl

/-- C6: whenever an iteration of `Gen`'s sampling loop accepts a
candidate, the returned triple satisfies `p = 2q + 1`, the probabilistic
primality test on `p`, and the generator checks `g^2 mod p ≠ 1` and
`g^q mod p = 1`. -/
theorem C6_gen_valid (pp : ℕ → Bool) (q g pv qv gv : ℕ)
    (h : genStep pp q g = some (pv, qv, gv)) :
    pv = 2 * qv + 1 ∧ pp pv = true ∧ gv ^ 2 % pv ≠ 1 ∧ gv ^ qv % pv = 1 := by
  simp only [genStep] at h
  split at h
  next hpp =>
    split at h
    next => exact Option.noConfusion h
    next hg2 =>
      split at h
      next hgq =>
        simp only [Option.some.injEq, Prod.mk.injEq] at h
        obtain ⟨h4, h5, h6⟩ := h
        subst h4
        subst h5
        subst h6
        exact ⟨by ring, hpp, hg2, hgq⟩
      next => exact Option.noConfusion h
  next => exact Option.noConfusion h

/-- Witness for C6: the acceptance of the candidate `(q, g) = (11, 4)`
under a primality oracle accepting `23`. -/
theorem C6_gen_valid_witness :
    (23 : ℕ) = 2 * 11 + 1 ∧ (fun n => n == 23) 23 = true ∧
      (4 : ℕ) ^ 2 % 23 ≠ 1 ∧ (4 : ℕ) ^ 11 % 23 = 1 :=
  C6_gen_valid (fun n => n == 23) 11 4 23 11 4 rfl

/-- C7 (code defect): `GenerateKey` stores the raw draw of
`big.Int.Rand(randSource, q-1)`, which is uniform on `[0, q-1)`; the
draw `0` is in that range and yields a private key with `X = 0`,
contradicting the claimed range `1 ≤ x < q` (shown with `q = 11`).
The public value does satisfy `Y = g^X mod p`. -/
theorem C7_generateKey_zero_draw :
    (generateKey 23 11 4 0).X = 0 ∧ (generateKey 23 11 4 0).Y = 4 ^ 0 % 23 ∧
      (0 : ℕ) < 11 - 1 :=
  ⟨rfl, rfl, by norm_num⟩

/-- C8 counterexample: at `p = 23, g = 4, x = 3` (so `y = 18`),
encrypting `m = 10` with ephemeral exponent `k = 5` produces the first
ciphertext component `4^5 mod 23 = 12`, not `9` as the claim states. -/
theorem C8_counterexample :
    (keyFromParams 23 4 3).toPublicKey.encrypt 5 10 = Except.ok (12, 7) ∧ (12 : ℕ) ≠ 9 :=
  ⟨rfl, by decide⟩

/-- C8 amended: with `p = 23, q = 11, g = 4, x = 3` the public value is
`y = 4^3 mod 23 = 18`; encrypting `m = 10` with `k = 5` gives
`c1 = 4^5 mod 23 = 12`, `s = 18^5 mod 23 = 3`, `c2 = 10*3 mod 23 = 7`,
and decrypting `(12, 7)` with `x = 3` returns `10`. -/
theorem C8_amended_vector :
    (keyFromParams 23 4 3).Y = 18 ∧ 4 ^ 5 % 23 = 12 ∧ 18 ^ 5 % 23 = 3 ∧
      (keyFromParams 23 4 3).toPublicKey.encrypt 5 10 = Except.ok (12, 7) ∧
      (keyFromParams 23 4 3).decrypt 12 7 = Except.ok 10 :=
  ⟨rfl, by decide, by decide, rfl, rfl⟩

/-- C9 counterexample: with prime modulus `p = 23` and exponent
`x = 3 ∈ [1, 11)`, the ciphertext `(0, 5)` passes the size guard
(`0 < 23`) and yet `Decrypt` returns the `InvalidKey` error: the branch
is reachable with intact key material. -/
theorem C9_counterexample :
    (keyFromParams 23 4 3).decrypt 0 5 = Except.error ElgamalError.invalidKey ∧
      Nat.Prime 23 ∧ (1 : ℕ) ≤ 3 ∧ (3 : ℕ) < 11 ∧ (0 : ℕ) < 23 :=
  ⟨rfl, by norm_num, by decide, by decide, by decide⟩

/-- C9 amended: for a private key with prime modulus `p` and exponent
`x ≥ 1`, `Decrypt` on a ciphertext passing the size guard fails with the
`InvalidKey` error exactly when `p` divides `c1` (then the shared secret
`c1^x mod p` is `0` and has no modular inverse); for every `c1` that is
not a multiple of `p` the branch is unreachable. -/
theorem C9_invalidKey_iff (p gv yv x c1 c2 : ℕ) (hp : p.Prime) (hx : 1 ≤ x)
    (hguard : ¬(p < c1 ∧ p < c2)) :
    PrivateKey.decrypt ⟨⟨gv, p, yv⟩, x⟩ c1 c2 = Except.error ElgamalError.invalidKey ↔
      p ∣ c1 := by
  have hp1 : 1 < p := hp.one_lt
  unfold PrivateKey.decrypt
  rw [if_neg hguard]
  show (match modInverse (c1 ^ x % p) p with
    | none => Except.error ElgamalError.invalidKey
    | some sinv => Except.ok (sinv * c2 % p)) = Except.error ElgamalError.invalidKey ↔ p ∣ c1
  by_cases hd : p ∣ c1
  · have hds : p ∣ c1 ^ x % p := by
      rw [Nat.dvd_mod_iff (dvd_refl p)]
      exact dvd_pow hd (by omega)
    have hgcd : Nat.gcd (c1 ^ x % p) p ≠ 1 := by
      intro h1
      have hdg : p ∣ Nat.gcd (c1 ^ x % p) p := Nat.dvd_gcd hds dvd_rfl
      rw [h1] at hdg
      exact absurd (Nat.le_of_dvd one_pos hdg) (by omega)
    rw [(modInverse_eq_none hp1).mpr hgcd]
    simp [hd]
  · have hnds : ¬ p ∣ c1 ^ x % p := not_dvd_pow_mod hp hd x
    have hgcd : Nat.gcd (c1 ^ x % p) p = 1 :=
      Nat.Coprime.symm (hp.coprime_iff_not_dvd.mpr hnds)
    obtain ⟨b, hb, -⟩ := modInverse_spec hgcd hp1
    rw [hb]
    simp [hd]

/-- Witness for the amended C9 at the reachable input `c1 = 0`. -/
theorem C9_invalidKey_iff_witness :
    PrivateKey.decrypt ⟨⟨4, 23, 18⟩, 3⟩ 0 5 = Except.error ElgamalError.invalidKey :=
  (C9_invalidKey_iff 23 4 18 3 0 5 (by norm_num) (by decide) (by decide)).mpr (dvd_zero 23)

/-- C10: every ciphertext returned by `Encrypt` has both components
strictly below `p` (they are residues modulo `p`), and consequently
passes the size guards of `Decrypt`, `HomomorphicEncTwo` and
`HommorphicEncMultiple`. -/
theorem C10_encrypt_canonical (pub : PublicKey) (k m c1 c2 : ℕ)
    (hP : 2 ≤ pub.P) (henc : pub.encrypt k m = Except.ok (c1, c2)) :
    c1 < pub.P ∧ c2 < pub.P ∧
      (∀ x, PrivateKey.decrypt ⟨pub, x⟩ c1 c2 ≠ Except.error ElgamalError.cipherTooLarge) ∧
      pub.homomorphicEncTwo c1 c2 c1 c2 ≠ Except.error ElgamalError.cipherTooLarge ∧
      pub.hommorphicEncMultiple [(c1, c2)] ≠ Except.error ElgamalError.cipherTooLarge := by
  obtain ⟨hm, hc1, hc2⟩ := encrypt_eq_ok.mp henc
  have hP0 : 0 < pub.P := by omega
  have h1 : c1 < pub.P := by rw [hc1]; exact Nat.mod_lt _ hP0
  have h2 : c2 < pub.P := by rw [hc2]; exact Nat.mod_lt _ hP0
  have hguard : ¬(pub.P < c1 ∧ pub.P < c2) := by omega
  refine ⟨h1, h2, ?_, ?_, ?_⟩
  · intro x
    unfold PrivateKey.decrypt
    rw [if_neg hguard]
    cases hmi : modInverse (c1 ^ x % pub.P) pub.P with
    | none => simp [hmi]
    | some b => simp [hmi]
  · unfold PublicKey.homomorphicEncTwo
    rw [if_neg hguard, if_neg hguard]
    simp
  · show hommorphicLoop pub.P [(c1, c2)] 1 1 ≠ Except.error ElgamalError.cipherTooLarge
    rw [hommorphicLoop, if_neg hguard, hommorphicLoop]
    simp

/-- C2: pairwise multiplicative homomorphism — for a valid key pair and
plaintexts `ma, mb < p`, decrypting the `HomomorphicEncTwo` combination
of their encryptions (any ephemeral exponents) yields `ma * mb mod p`. -/
theorem C2_homomorphic_two (p q g x ma mb ka kb : ℕ)
    (hp : p.Prime) (hq : q.Prime) (hpq : p = 2 * q + 1)
    (hg2 : g ^ 2 % p ≠ 1) (hgq : g ^ q % p = 1)
    (hx1 : 1 ≤ x) (hxq : x < q) (hma : ma < p) (hmb : mb < p) :
    (((keyFromParams p g x).toPublicKey.encrypt ka ma).bind fun a =>
      ((keyFromParams p g x).toPublicKey.encrypt kb mb).bind fun b =>
        ((keyFromParams p g x).toPublicKey.homomorphicEncTwo a.1 a.2 b.1 b.2).bind fun c =>
          (keyFromParams p g x).decrypt c.1 c.2) = Except.ok (ma * mb % p) := by
  have hp0 : 0 < p := hp.pos
  have hpg : ¬ p ∣ g := not_dvd_of_pow_mod_eq_one hq.pos hgq
  have ha : (keyFromParams p g x).toPublicKey.encrypt ka ma =
      Except.ok (g ^ ka % p, ma * ((g ^ x % p) ^ ka % p) % p) :=
    encrypt_eq_ok.mpr ⟨Nat.le_of_lt hma, rfl, rfl⟩
  have hb : (keyFromParams p g x).toPublicKey.encrypt kb mb =
      Except.ok (g ^ kb % p, mb * ((g ^ x % p) ^ kb % p) % p) :=
    encrypt_eq_ok.mpr ⟨Nat.le_of_lt hmb, rfl, rfl⟩
  rw [ha, hb]
  have hcomb : (keyFromParams p g x).toPublicKey.homomorphicEncTwo
      (g ^ ka % p) (ma * ((g ^ x % p) ^ ka % p) % p)
      (g ^ kb % p) (mb * ((g ^ x % p) ^ kb % p) % p) =
      Except.ok ((g ^ ka % p) * (g ^ kb % p) % p,
        (ma * ((g ^ x % p) ^ ka % p) % p) * (mb * ((g ^ x % p) ^ kb % p) % p) % p) := by
    unfold PublicKey.homomorphicEncTwo
    rw [if_neg (fun hcon => absurd hcon.1 (Nat.not_lt.mpr (Nat.le_of_lt (Nat.mod_lt _ hp0)))),
      if_neg (fun hcon => absurd hcon.1 (Nat.not_lt.mpr (Nat.le_of_lt (Nat.mod_lt _ hp0))))]
    rfl
  show ((keyFromParams p g x).toPublicKey.homomorphicEncTwo
      (g ^ ka % p) (ma * ((g ^ x % p) ^ ka % p) % p)
      (g ^ kb % p) (mb * ((g ^ x % p) ^ kb % p) % p)).bind
        (fun c => (keyFromParams p g x).decrypt c.1 c.2) = Except.ok (ma * mb % p)
  rw [hcomb]
  have hnd : ¬ p ∣ (g ^ ka % p) * (g ^ kb % p) % p := by
    rw [Nat.dvd_mod_iff (dvd_refl p)]
    intro hdd
    rcases (Nat.Prime.dvd_mul hp).mp hdd with h | h
    · exact not_dvd_pow_mod hp hpg ka h
    · exact not_dvd_pow_mod hp hpg kb h
  have hrel : (ma * ((g ^ x % p) ^ ka % p) % p) * (mb * ((g ^ x % p) ^ kb % p) % p) % p ≡
      (ma * mb % p) * ((g ^ ka % p) * (g ^ kb % p) % p) ^ x [MOD p] := by
    calc (ma * ((g ^ x % p) ^ ka % p) % p) * (mb * ((g ^ x % p) ^ kb % p) % p) % p
        ≡ (ma * ((g ^ x % p) ^ ka % p) % p) * (mb * ((g ^ x % p) ^ kb % p) % p) [MOD p] :=
          Nat.mod_modEq _ p
      _ ≡ (ma * (g ^ ka % p) ^ x) * (mb * (g ^ kb % p) ^ x) [MOD p] :=
          Nat.ModEq.mul (encrypt_rel p g x ka ma) (encrypt_rel p g x kb mb)
      _ = (ma * mb) * ((g ^ ka % p) * (g ^ kb % p)) ^ x := by ring
      _ ≡ (ma * mb % p) * ((g ^ ka % p) * (g ^ kb % p)) ^ x [MOD p] :=
          Nat.ModEq.mul_right _ (Nat.mod_modEq _ p).symm
      _ ≡ (ma * mb % p) * ((g ^ ka % p) * (g ^ kb % p) % p) ^ x [MOD p] :=
          Nat.ModEq.mul_left _ ((Nat.mod_modEq _ p).symm.pow x)
  exact decrypt_of_rel p g (g ^ x % p) x _ _ _ hp (Nat.mod_lt _ hp0) hnd
    (Nat.mod_lt _ hp0) hrel

/-- Witness for C2: `10 * 3 mod 23 = 7` recovered from the combination
of the encryptions of `10` and `3`. -/
theorem C2_homomorphic_two_witness :
    (((keyFromParams 23 4 3).toPublicKey.encrypt 5 10).bind fun a =>
      ((keyFromParams 23 4 3).toPublicKey.encrypt 7 3).bind fun b =>
        ((keyFromParams 23 4 3).toPublicKey.homomorphicEncTwo a.1 a.2 b.1 b.2).bind fun c =>
          (keyFromParams 23 4 3).decrypt c.1 c.2) = Except.ok (10 * 3 % 23) :=
  C2_homomorphic_two 23 11 4 3 10 3 5 7 (by norm_num) (by norm_num) (by norm_num)
    (by decide) (by decide) (by decide) (by decide) (by decide) (by decide)

/-- C3: n-ary multiplicative homomorphism — `HommorphicEncMultiple`
folds the pairwise combination starting from the identity ciphertext
`(1, 1)` (in particular the empty sequence yields `(1, 1)`), and
decrypting the combination of the encryptions of `m_1, …, m_k` (each
`< p`, any ephemeral exponents) yields their product modulo `p`. -/
theorem C3_homomorphic_multiple (p q g x : ℕ) (l : List (ℕ × ℕ))
    (hp : p.Prime) (hq : q.Prime) (hpq : p = 2 * q + 1)
    (hg2 : g ^ 2 % p ≠ 1) (hgq : g ^ q % p = 1)
    (hx1 : 1 ≤ x) (hxq : x < q) (hm : ∀ mk ∈ l, mk.1 < p) :
    (keyFromParams p g x).toPublicKey.hommorphicEncMultiple [] = Except.ok (1, 1) ∧
    ((l.mapM fun mk => (keyFromParams p g x).toPublicKey.encrypt mk.2 mk.1).bind fun cs =>
      ((keyFromParams p g x).toPublicKey.hommorphicEncMultiple cs).bind fun C =>
        (keyFromParams p g x).decrypt C.1 C.2) = Except.ok ((l.map Prod.fst).prod % p) := by
  have hp1 : 1 < p := hp.one_lt
  have hp0 : 0 < p := hp.pos
  have hpg : ¬ p ∣ g := not_dvd_of_pow_mod_eq_one hq.pos hgq
  refine ⟨rfl, ?_⟩
  have hmap : l.mapM (fun mk => (keyFromParams p g x).toPublicKey.encrypt mk.2 mk.1) =
      Except.ok (l.map fun mk => (g ^ mk.2 % p, mk.1 * ((g ^ x % p) ^ mk.2 % p) % p)) :=
    mapM_ok _ _ l (fun mk hmk => encrypt_eq_ok.mpr ⟨Nat.le_of_lt (hm mk hmk), rfl, rfl⟩)
  rw [hmap]
  have hfst : (l.map fun mk => ((g ^ mk.2 % p : ℕ), (mk.1 * ((g ^ x % p) ^ mk.2 % p) % p : ℕ))).map Prod.fst =
      l.map fun mk => g ^ mk.2 % p := by
    rw [List.map_map]
    rfl
  have hsnd : (l.map fun mk => ((g ^ mk.2 % p : ℕ), (mk.1 * ((g ^ x % p) ^ mk.2 % p) % p : ℕ))).map Prod.snd =
      l.map fun mk => mk.1 * ((g ^ x % p) ^ mk.2 % p) % p := by
    rw [List.map_map]
    rfl
  have hcomp : ∀ c ∈ l.map fun mk =>
      ((g ^ mk.2 % p : ℕ), (mk.1 * ((g ^ x % p) ^ mk.2 % p) % p : ℕ)), c.1 < p ∧ c.2 < p := by
    intro c hc
    obtain ⟨mk, -, rfl⟩ := List.mem_map.mp hc
    exact ⟨Nat.mod_lt _ hp0, Nat.mod_lt _ hp0⟩
  have hloop : (keyFromParams p g x).toPublicKey.hommorphicEncMultiple
      (l.map fun mk => ((g ^ mk.2 % p : ℕ), (mk.1 * ((g ^ x % p) ^ mk.2 % p) % p : ℕ))) =
      Except.ok
        (1 * ((l.map fun mk => ((g ^ mk.2 % p : ℕ), (mk.1 * ((g ^ x % p) ^ mk.2 % p) % p : ℕ))).map Prod.fst).prod % p,
         1 * ((l.map fun mk => ((g ^ mk.2 % p : ℕ), (mk.1 * ((g ^ x % p) ^ mk.2 % p) % p : ℕ))).map Prod.snd).prod % p) :=
    hommorphicLoop_spec p hp0 _ 1 1 hcomp hp1 hp1
  rw [hfst, hsnd] at hloop
  simp only [one_mul] at hloop
  show ((keyFromParams p g x).toPublicKey.hommorphicEncMultiple
      (l.map fun mk => ((g ^ mk.2 % p : ℕ), (mk.1 * ((g ^ x % p) ^ mk.2 % p) % p : ℕ)))).bind
        (fun C => (keyFromParams p g x).decrypt C.1 C.2) = Except.ok ((l.map Prod.fst).prod % p)
  rw [hloop]
  have hnd : ¬ p ∣ (l.map fun mk => g ^ mk.2 % p).prod % p := by
    rw [Nat.dvd_mod_iff (dvd_refl p)]
    intro hdd
    obtain ⟨a, hamem, hda⟩ := (hp.prime.dvd_prod_iff).mp hdd
    obtain ⟨mk, -, rfl⟩ := List.mem_map.mp hamem
    exact not_dvd_pow_mod hp hpg mk.2 hda
  have hrel : (l.map fun mk => mk.1 * ((g ^ x % p) ^ mk.2 % p) % p).prod % p ≡
      ((l.map Prod.fst).prod % p) * ((l.map fun mk => g ^ mk.2 % p).prod % p) ^ x [MOD p] := by
    calc (l.map fun mk => mk.1 * ((g ^ x % p) ^ mk.2 % p) % p).prod % p
        ≡ (l.map fun mk => mk.1 * ((g ^ x % p) ^ mk.2 % p) % p).prod [MOD p] :=
          Nat.mod_modEq _ p
      _ ≡ (l.map Prod.fst).prod * ((l.map fun mk => g ^ mk.2 % p).prod) ^ x [MOD p] :=
          prod_rel p g x l
      _ ≡ ((l.map Prod.fst).prod % p) * ((l.map fun mk => g ^ mk.2 % p).prod) ^ x [MOD p] :=
          Nat.ModEq.mul_right _ (Nat.mod_modEq _ p).symm
      _ ≡ ((l.map Prod.fst).prod % p) * ((l.map fun mk => g ^ mk.2 % p).prod % p) ^ x [MOD p] :=
          Nat.ModEq.mul_left _ ((Nat.mod_modEq _ p).symm.pow x)
  exact decrypt_of_rel p g (g ^ x % p) x _ _ _ hp (Nat.mod_lt _ hp0) hnd
    (Nat.mod_lt _ hp0) hrel

/-- Witness for C3: the sequence `[10, 3]` (ephemeral exponents `5`,
`7`) decrypts to `(10 * 3) mod 23 = 7`. -/
theorem C3_homomorphic_multiple_witness :
    (keyFromParams 23 4 3).toPublicKey.hommorphicEncMultiple [] = Except.ok (1, 1) ∧
    (([((10 : ℕ), (5 : ℕ)), (3, 7)].mapM fun mk =>
        (keyFromParams 23 4 3).toPublicKey.encrypt mk.2 mk.1).bind fun cs =>
      ((keyFromParams 23 4 3).toPublicKey.hommorphicEncMultiple cs).bind fun C =>
        (keyFromParams 23 4 3).decrypt C.1 C.2) =
      Except.ok (([((10 : ℕ), (5 : ℕ)), (3, 7)].map Prod.fst).prod % 23) :=
  C3_homomorphic_multiple 23 11 4 3 [(10, 5), (3, 7)] (by norm_num) (by norm_num)
    (by norm_num) (by decide) (by decide) (by decide) (by decide) (by decide)

/-- Witness for C10 at the concrete test-vector ciphertext `(12, 7)`. -/
theorem C10_encrypt_canonical_witness :
    (12 : ℕ) < 23 ∧ (7 : ℕ) < 23 ∧
      (∀ x, PrivateKey.decrypt ⟨⟨4, 23, 18⟩, x⟩ 12 7 ≠ Except.error ElgamalError.cipherTooLarge) ∧
      PublicKey.homomorphicEncTwo ⟨4, 23, 18⟩ 12 7 12 7 ≠ Except.error ElgamalError.cipherTooLarge ∧
      PublicKey.hommorphicEncMultiple ⟨4, 23, 18⟩ [(12, 7)] ≠ Except.error ElgamalError.cipherTooLarge :=
  C10_encrypt_canonical ⟨4, 23, 18⟩ 5 10 12 7 (by norm_num) rfl
